import Mathlib

/-!
Shallow embedding of the coreference-resolution data loader
(`src/loader.py`): token normalization (`clean_token`), the CoNLL
annotation parser (`load_file`), document truncation
(`Document.truncate`), and the vocabulary lookup table
(`LazyVectors.stoi` / `LazyVectors.itos`).

Lines of an input file are modelled after Python's `line.split()`: each
line is the list of its whitespace-separated columns (`List String`).
The genre, in the source derived from a fixed segment of the file path,
is passed to `loadFile` as a parameter (path handling is out of scope of
the verified claims).
-/

set_option autoImplicit false

/-- `NORMALIZE_DICT` from the source: bracket-escape substitutions. -/
def NORMALIZE_DICT : List (String × String) :=
  [("/.", "."), ("/?", "?"),
   ("-LRB-", "("), ("-RRB-", ")"),
   ("-LCB-", "\x7b"), ("-RCB-", "\x7d"),
   ("-LSB-", "["), ("-RSB-", "]")]

/-- `REMOVED_CHAR` from the source: the single-character strings that
`clean_token` strips. -/
def REMOVED_CHAR : List String := ["/", "%", "*"]

/-- A character is removed iff its singleton string is in `REMOVED_CHAR`
(the source calls `str.replace(char, u'')` for each entry). -/
def isRemovedChar (ch : Char) : Bool :=
  REMOVED_CHAR.contains (String.mk [ch])

/-- `clean_token` from the source: normalize a raw token.
Chained `replace(char, u'')` over the removed characters is modelled as
one filter dropping all removed characters (the replacement is empty so
the replacements are independent). -/
def clean_token (token : String) : String :=
  let t1 : String :=
    match NORMALIZE_DICT.lookup token with
    | some v => v
    | none => token
  let t2 : String :=
    if REMOVED_CHAR.contains t1 then t1
    else String.mk (t1.data.filter (fun ch => !isRemovedChar ch))
  if t2.data.isEmpty then "," else t2

/-- A coreference mention record, as built by `load_file`:
`{'label': ..., 'start': ..., 'end': ..., 'span': ...}`.
Python's `None` end is `Option.none`; `endIdx` stands for the `'end'`
key (`end` is reserved in Lean). -/
structure Coref where
  label : String
  start : Nat
  endIdx : Option Nat
  span : Option (Nat × Nat)
deriving DecidableEq

/-- The `Document` class: tokens, coreference records, per-token speaker
labels and genre. -/
structure Document where
  tokens : List String
  corefs : List Coref
  speakers : List String
  genre : String
deriving DecidableEq

/-- The sentence-boundary token positions used by `Document.truncate`:
`[idx for idx, token in enumerate(tokens) if token in ['.', '?', '!']]`. -/
def sentenceIdxs (tokens : List String) : List Nat :=
  (tokens.enum.filter (fun p => (["." , "?", "!"] : List String).contains p.2)).map
    (fun p => p.1)

/-- Python list subscripting `l[j]` for a possibly negative index `j`:
a negative index counts from the end, and an index out of range is an
error (`none`). -/
def pyGetElem (l : List Nat) (j : Int) : Option Nat :=
  if 0 ≤ j then l.get? j.toNat
  else if (-j).toNat ≤ l.length then l.get? (l.length - (-j).toNat)
  else none

/-- `Document.truncate` from the source.  The pseudo-random draw
`random.sample(range(MAX, len(sentences)), 1)[0]` is abstracted as the
parameter `i`; the sampler guarantees `MAX ≤ i < len(sentences)`.
`deepcopy` on plain values is the identity.  The result is `none` when
the Python code would raise an IndexError on `sentences[i-50]` or
`sentences[i]`. -/
def Document.truncate (d : Document) (MAX : Nat) (i : Nat) : Option Document :=
  let sentences := sentenceIdxs d.tokens
  if MAX < sentences.length then
    match pyGetElem sentences ((i : Int) - 50), sentences.get? i with
    | some a, some b => some ⟨(d.tokens.take b).drop a, d.corefs, d.speakers, d.genre⟩
    | _, _ => none
  else some d

/-- The index found by the backwards scan
`for i in range(len(corefs)-1, -1, -1): if p(corefs[i]): break`:
the largest index whose element satisfies `p`. -/
def findLastIdx {α : Type} (p : α → Bool) : List α → Option Nat
  | [] => none
  | a :: as =>
    match findLastIdx p as with
    | some j => some (j + 1)
    | none => if p a then some 0 else none

/-- `corefs[j]['end'] = e`: update the end index of the `j`-th record. -/
def setEnd : List Coref → Nat → Nat → List Coref
  | [], _, _ => []
  | c :: cs, 0, e => { c with endIdx := some e } :: cs
  | c :: cs, j + 1, e => c :: setEnd cs j e

/-- The close-marker resolution of `load_file` (lines 244-248): scan the
pending list backwards for the last still-unresolved record with the
given label and set its end.  Mirrors Python exactly: if the loop falls
through without a `break` and the list is nonempty, the loop variable is
left at `0` and `corefs[0]['end']` is overwritten; if the list is empty,
the subscript raises (`none`). -/
def resolveClose (label : String) (idx : Nat) (corefs : List Coref) : Option (List Coref) :=
  match findLastIdx (fun c => c.label == label && c.endIdx.isNone) corefs with
  | some j => some (setEnd corefs j idx)
  | none => if corefs.isEmpty then none else some (setEnd corefs 0 idx)

/-- Well-formed-input variant of `resolveClose`: a close marker must
find a genuinely matching unresolved open record (the spec calls the
fall-through case malformed input). -/
def resolveCloseWF (label : String) (idx : Nat) (corefs : List Coref) : Option (List Coref) :=
  match findLastIdx (fun c => c.label == label && c.endIdx.isNone) corefs with
  | some j => some (setEnd corefs j idx)
  | none => none

/-- Python's `str.split('|')` on the character list of the coreference
column. -/
def splitPipe : List Char → List (List Char)
  | [] => [[]]
  | '|' :: rest => [] :: splitPipe rest
  | ch :: rest =>
    match splitPipe rest with
    | g :: gs => (ch :: g) :: gs
    | [] => [[ch]]

/-- `re.match(r"^(\(?)(\d+)(\)?)$", token)`: an optional opening
parenthesis, one or more digits (the cluster label), an optional closing
parenthesis.  Returns (has open marker, label, has close marker), or
`none` when the match fails (in Python `match.group` then raises). -/
def parseCorefToken (t : List Char) : Option (Bool × String × Bool) :=
  let hasOpen : Bool := match t with | '(' :: _ => true | _ => false
  let t1 : List Char := match t with | '(' :: rest => rest | _ => t
  let digits := t1.takeWhile Char.isDigit
  let rest := t1.dropWhile Char.isDigit
  if digits.isEmpty then none
  else
    match rest with
    | [] => some (hasOpen, String.mk digits, false)
    | [')'] => some (hasOpen, String.mk digits, true)
    | _ => none

/-- The `for token in coref_expr` loop of `load_file`: process each
label token of one coreference column, threading the pending-mention
list. -/
def processCorefExpr (idx : Nat) (corefs : List Coref) : List (List Char) → Option (List Coref)
  | [] => some corefs
  | t :: rest =>
    match parseCorefToken t with
    | none => none
    | some (op, lab, cl) =>
      let cs1 := if op then corefs ++ [⟨lab, idx, none, none⟩] else corefs
      match (if cl then resolveClose lab idx cs1 else some cs1) with
      | none => none
      | some cs2 => processCorefExpr idx cs2 rest

/-- Well-formed-input variant of `processCorefExpr`, using
`resolveCloseWF`. -/
def processCorefExprWF (idx : Nat) (corefs : List Coref) : List (List Char) → Option (List Coref)
  | [] => some corefs
  | t :: rest =>
    match parseCorefToken t with
    | none => none
    | some (op, lab, cl) =>
      let cs1 := if op then corefs ++ [⟨lab, idx, none, none⟩] else corefs
      match (if cl then resolveCloseWF lab idx cs1 else some cs1) with
      | none => none
      | some cs2 => processCorefExprWF idx cs2 rest

/-- The mutable accumulator state of `load_file`: finished documents,
flushed document-level tokens / coreference records / speakers, the
per-utterance buffers `text` and `corefs`, the running token index, and
the last-seen speaker column (`none` before any token record, matching
the unbound Python local). -/
structure LoadState where
  documents : List Document
  tokens : List String
  text : List String
  utts_corefs : List Coref
  utts_speakers : List String
  corefs : List Coref
  index : Nat
  speaker : Option String
deriving DecidableEq

/-- The initial accumulator state of `load_file`. -/
def initState : LoadState :=
  ⟨[], [], [], [], [], [], 0, none⟩

/-- Modelled from the spec: `fix_coref_spans` is defined in `utils`,
which is not among the given sources.  Per the spec (section 3) a
mention carries "an optional materialized span"; it is modelled as
materializing each mention's span from its start and end indices,
leaving every other field of the document unchanged. -/
def fixCorefSpans (d : Document) : Document :=
  { d with corefs := d.corefs.map (fun c =>
      { c with span := match c.endIdx with
                       | some e => some (c.start, e)
                       | none => none }) }

/-- The token-record branch of `load_file` (`len(cols) > 7`): append the
normalized token text, record the speaker column (`cols[9]`, an error if
the line has fewer than ten columns), process the coreference column
(`cols[-1]`) unless it is the empty marker, and advance the token
index. -/
def processRecord (s : LoadState) (cols : List String) : Option LoadState :=
  match cols.get? 9 with
  | none => none
  | some sp =>
    let newText := s.text ++ [clean_token (cols.getD 3 "")]
    let lastCol := cols.getLastD ""
    if lastCol == "-" then
      some { s with text := newText, speaker := some sp, index := s.index + 1 }
    else
      match processCorefExpr s.index s.corefs (splitPipe lastCol.data) with
      | none => none
      | some cs => some { s with text := newText, speaker := some sp,
                                 corefs := cs, index := s.index + 1 }

/-- Well-formed-input variant of `processRecord`, using
`processCorefExprWF`. -/
def processRecordWF (s : LoadState) (cols : List String) : Option LoadState :=
  match cols.get? 9 with
  | none => none
  | some sp =>
    let newText := s.text ++ [clean_token (cols.getD 3 "")]
    let lastCol := cols.getLastD ""
    if lastCol == "-" then
      some { s with text := newText, speaker := some sp, index := s.index + 1 }
    else
      match processCorefExprWF s.index s.corefs (splitPipe lastCol.data) with
      | none => none
      | some cs => some { s with text := newText, speaker := some sp,
                                 corefs := cs, index := s.index + 1 }

/-- One iteration of the line loop of `load_file`.  A blank line flushes
the pending utterance (a no-op when no text is pending); a two-column
line finalizes a document — note the source resets `tokens, text,
utts_corefs, utts_speakers, index` but not `corefs`; a line with more
than seven columns is a token record; anything else is skipped. -/
def processLine (genre : String) (s : LoadState) (cols : List String) : Option LoadState :=
  if cols.length = 0 then
    if s.text.isEmpty then some s
    else
      match s.speaker with
      | none => none
      | some sp =>
        some { s with tokens := s.tokens ++ s.text,
                      utts_corefs := s.utts_corefs ++ s.corefs,
                      utts_speakers := s.utts_speakers ++ List.replicate s.text.length sp,
                      text := [], corefs := [] }
  else if cols.length = 2 then
    some { s with documents := s.documents ++
                    [fixCorefSpans ⟨s.tokens, s.utts_corefs, s.utts_speakers, genre⟩],
                  tokens := [], text := [], utts_corefs := [], utts_speakers := [],
                  index := 0 }
  else if 7 < cols.length then processRecord s cols
  else some s

/-- Well-formed-input variant of `processLine`: in addition to
`processRecordWF`, a document boundary must not be reached with a
pending unflushed utterance (the spec treats an utterance not terminated
by a blank line, and mention records leaking across a document boundary,
as malformed input). -/
def processLineWF (genre : String) (s : LoadState) (cols : List String) : Option LoadState :=
  if cols.length = 0 then
    if s.text.isEmpty then some s
    else
      match s.speaker with
      | none => none
      | some sp =>
        some { s with tokens := s.tokens ++ s.text,
                      utts_corefs := s.utts_corefs ++ s.corefs,
                      utts_speakers := s.utts_speakers ++ List.replicate s.text.length sp,
                      text := [], corefs := [] }
  else if cols.length = 2 then
    if s.text.isEmpty && s.corefs.isEmpty then
      some { s with documents := s.documents ++
                      [fixCorefSpans ⟨s.tokens, s.utts_corefs, s.utts_speakers, genre⟩],
                    tokens := [], text := [], utts_corefs := [], utts_speakers := [],
                    index := 0 }
    else none
  else if 7 < cols.length then processRecordWF s cols
  else some s

/-- The line loop of `load_file` over a whole file. -/
def runLines (genre : String) (s : LoadState) : List (List String) → Option LoadState
  | [] => some s
  | cols :: rest =>
    match processLine genre s cols with
    | none => none
    | some s1 => runLines genre s1 rest

/-- Well-formed-input variant of `runLines`. -/
def runLinesWF (genre : String) (s : LoadState) : List (List String) → Option LoadState
  | [] => some s
  | cols :: rest =>
    match processLineWF genre s cols with
    | none => none
    | some s1 => runLinesWF genre s1 rest

/-- `load_file`: the documents produced from a file's split lines
(`none` when the Python code would raise). -/
def loadFile (genre : String) (lines : List (List String)) : Option (List Document) :=
  (runLines genre initState lines).map (fun s => s.documents)

/-- `load_file` restricted to well-formed inputs: it succeeds exactly on
inputs where every close marker finds a matching unresolved open record
and no pending utterance data crosses a document boundary. -/
def loadFileWF (genre : String) (lines : List (List String)) : Option (List Document) :=
  (runLinesWF genre initState lines).map (fun s => s.documents)

/-- `LazyVectors.unk_idx` from the source. -/
def LazyVectors.unk_idx : Nat := 1

/-- The `_stoi` dictionary of `LazyVectors.set_dicts`:
`{s: i for i, s in enumerate(vocab)}.get(s)`.  For a duplicated token
the later index wins, hence the last matching position. -/
def LazyVectors.stoiMap (vocab : List String) (s : String) : Option Nat :=
  findLastIdx (fun v => v == s) vocab

/-- The `_itos` dictionary of `LazyVectors.set_dicts`:
`{i: s for s, i in self._stoi.items()}.get(i)`.  Index `i` is a key
exactly when it is a value of `_stoi`, i.e. when the token at position
`i` of the vocabulary resolves back to `i`. -/
def LazyVectors.itosMap (vocab : List String) (i : Nat) : Option String :=
  match vocab.get? i with
  | some t => if LazyVectors.stoiMap vocab t = some i then some t else none
  | none => none

/-- `LazyVectors.stoi` from the source:
`idx = self._stoi.get(s); return idx + 2 if idx else self.unk_idx`.
Python truthiness: both a missing key (`None`) and the integer `0` are
falsy. -/
def LazyVectors.stoi (vocab : List String) (s : String) : Nat :=
  match LazyVectors.stoiMap vocab s with
  | some idx => if idx = 0 then LazyVectors.unk_idx else idx + 2
  | none => LazyVectors.unk_idx

/-- `LazyVectors.itos` from the source:
`token = self._itos.get(i); return token if token else 'UNK'`.
Python truthiness: both a missing key and the empty string are falsy. -/
def LazyVectors.itos (vocab : List String) (i : Nat) : String :=
  match LazyVectors.itosMap vocab i with
  | some t => if t = "" then "UNK" else t
  | none => "UNK"

/-! ## Helper lemmas -/

theorem findLastIdx_eq_none {α : Type} (p : α → Bool) (l : List α)
    (h : ∀ a ∈ l, p a = false) : findLastIdx p l = none := by
  induction l with
  | nil => rfl
  | cons a as ih =>
    simp only [findLastIdx]
    rw [ih (fun x hx => h x (List.mem_cons_of_mem a hx))]
    simp [h a (List.mem_cons_self a as)]

theorem findLastIdx_append_last {α : Type} (p : α → Bool) (xs ys : List α) (y : α)
    (hy : p y = true) (hys : ∀ z ∈ ys, p z = false) :
    findLastIdx p (xs ++ y :: ys) = some xs.length := by
  induction xs with
  | nil =>
    simp only [List.nil_append, findLastIdx]
    rw [findLastIdx_eq_none p ys hys]
    simp [hy]
  | cons a as ih =>
    simp only [List.cons_append, findLastIdx, List.append_eq]
    rw [ih]
    simp

theorem setEnd_append (xs ys : List Coref) (y : Coref) (e : Nat) :
    setEnd (xs ++ y :: ys) xs.length e = xs ++ { y with endIdx := some e } :: ys := by
  induction xs with
  | nil => rfl
  | cons a as ih => simp only [List.cons_append, List.length_cons, setEnd, List.append_eq, ih]

/-! ## Claims about the vocabulary table -/

/-- Claim C1: the spec states `itos(stoi(t)) == t` for every token of the
working vocabulary.  The code violates it: `stoi` shifts the working
index by `+2` while `itos` reads the unshifted map, so the round trip
never returns the original token.  At the failing input `vocab =
["a","b"]`, `t = "b"`: `stoi` gives `3` and `itos 3` gives `"UNK"`. -/
theorem itos_stoi_roundtrip_fails :
    ("b" : String) ∈ ["a", "b"] ∧
    LazyVectors.itos ["a", "b"] (LazyVectors.stoi ["a", "b"] "b") = "UNK" ∧
    ("UNK" : String) ≠ "b" := by
  refine ⟨by decide, by decide, by decide⟩

/-- Claim C2: the spec requires `stoi` to return working index + 2 even
for the token whose working index is `0`.  The code decides presence by
integer truthiness (`idx + 2 if idx else unk`), so the token at working
index `0` is returned as the unknown index `1`, not `2`; tokens at
working index `1` and above are shifted correctly (here `"b"` at working
index `1` gives `3`). -/
theorem stoi_zero_index_truthiness :
    LazyVectors.stoiMap ["a", "b"] "a" = some 0 ∧
    LazyVectors.stoi ["a", "b"] "a" = 1 ∧
    LazyVectors.stoi ["a", "b"] "b" = 3 := by
  refine ⟨by decide, by decide, by decide⟩

/-- Claim C7: `stoi` and `itos` are total; a token absent from the
working vocabulary resolves to the fixed unknown index `1`, and an index
that is not a key of the backward map resolves to the sentinel string
`"UNK"`. -/
theorem stoi_itos_sentinel_values (vocab : List String) (s : String) (i : Nat)
    (hs : s ∉ vocab) (hi : LazyVectors.itosMap vocab i = none) :
    LazyVectors.stoi vocab s = 1 ∧ LazyVectors.itos vocab i = "UNK" := by
  constructor
  · have h : LazyVectors.stoiMap vocab s = none := by
      apply findLastIdx_eq_none
      intro v hv
      simp only [beq_eq_false_iff_ne, ne_eq]
      intro h
      exact hs (h ▸ hv)
    simp [LazyVectors.stoi, h, LazyVectors.unk_idx]
  · simp [LazyVectors.itos, hi]

/-- Claim C7 witness: the absent token `"b"` resolves to `1` and the
unmapped index `5` resolves to `"UNK"` over the vocabulary `["a"]`. -/
theorem stoi_itos_sentinel_values_witness :
    LazyVectors.stoi ["a"] "b" = 1 ∧ LazyVectors.itos ["a"] 5 = "UNK" :=
  stoi_itos_sentinel_values ["a"] "b" 5 (by decide) (by decide)

/-! ## Claims about token normalization -/

/-- Claim C6 counterexample: the spec states that a token composed
solely of removed-punctuation characters is returned unchanged, but the
exact-match exemption of `clean_token` only covers the single-character
strings, so the two-character token `"//"` is stripped to empty and
replaced by the fallback comma. -/
theorem clean_token_solely_removed_cex :
    clean_token "//" = "," ∧ ("," : String) ≠ "//" := by
  refine ⟨by decide, by decide⟩

theorem lookup_normalize_eq_none (t : String)
    (hall : ∀ ch ∈ t.data, isRemovedChar ch = true) :
    NORMALIZE_DICT.lookup t = none := by
  have h1 : t ≠ "/." := by rintro rfl; have := hall '.' (by decide); revert this; decide
  have h2 : t ≠ "/?" := by rintro rfl; have := hall '?' (by decide); revert this; decide
  have h3 : t ≠ "-LRB-" := by rintro rfl; have := hall 'L' (by decide); revert this; decide
  have h4 : t ≠ "-RRB-" := by rintro rfl; have := hall 'R' (by decide); revert this; decide
  have h5 : t ≠ "-LCB-" := by rintro rfl; have := hall 'L' (by decide); revert this; decide
  have h6 : t ≠ "-RCB-" := by rintro rfl; have := hall 'R' (by decide); revert this; decide
  have h7 : t ≠ "-LSB-" := by rintro rfl; have := hall 'L' (by decide); revert this; decide
  have h8 : t ≠ "-RSB-" := by rintro rfl; have := hall 'R' (by decide); revert this; decide
  simp [NORMALIZE_DICT, List.lookup, beq_eq_false_iff_ne.mpr h1, beq_eq_false_iff_ne.mpr h2,
        beq_eq_false_iff_ne.mpr h3, beq_eq_false_iff_ne.mpr h4, beq_eq_false_iff_ne.mpr h5,
        beq_eq_false_iff_ne.mpr h6, beq_eq_false_iff_ne.mpr h7, beq_eq_false_iff_ne.mpr h8]

/-- Claim C6 (amended): `clean_token` returns unchanged exactly the
tokens equal to one of the single removed characters; a token of two or
more characters composed solely of removed characters is stripped to
empty and becomes the fallback comma. -/
theorem clean_token_removed_char_behavior (t : String) :
    (t ∈ REMOVED_CHAR → clean_token t = t) ∧
    (2 ≤ t.data.length → (∀ ch ∈ t.data, isRemovedChar ch = true) →
      clean_token t = ",") := by
  constructor
  · intro ht
    have h : t = "/" ∨ t = "%" ∨ t = "*" := by simpa [REMOVED_CHAR] using ht
    rcases h with h | h | h <;> subst h <;> decide
  · intro hlen hall
    have hlk := lookup_normalize_eq_none t hall
    have hne : t ∉ REMOVED_CHAR := by
      intro hmem
      have h : t = "/" ∨ t = "%" ∨ t = "*" := by simpa [REMOVED_CHAR] using hmem
      rcases h with h | h | h <;> subst h <;> revert hlen <;> decide
    have hfil : t.data.filter (fun ch => !isRemovedChar ch) = [] := by
      rw [List.filter_eq_nil_iff]
      intro a ha
      simp [hall a ha]
    simp [clean_token, hlk, hfil, hne]

/-- Claim C6 witness: `"/"` is returned unchanged and `"/%"` (solely
removed characters, length two) becomes the fallback comma. -/
theorem clean_token_removed_char_behavior_witness :
    clean_token "/" = "/" ∧ clean_token "/%" = "," :=
  ⟨(clean_token_removed_char_behavior "/").1 (by decide),
   (clean_token_removed_char_behavior "/%").2 (by decide) (by decide)⟩

/-! ## Claims about document truncation -/

/-- Claim C8 counterexample: the spec states the truncated token
sequence runs up to and including the sentence boundary at the sampled
index `i`, but the Python slice `tokens[sentences[i-50]:sentences[i]]`
excludes the boundary token at `sentences[i]`.  On a document of 51
sentence-ending tokens with `i = 50`, the code keeps 50 tokens while the
inclusive slice described by the claim has 51. -/
theorem truncate_slice_excludes_boundary_cex :
    (Document.truncate ⟨List.replicate 51 ".", [], [], "g"⟩ 50 50).map Document.tokens
      = some (List.replicate 50 ".") ∧
    ((List.replicate 51 (".": String)).take (50 + 1)).drop 0 = List.replicate 51 "." ∧
    List.replicate 50 (".": String) ≠ List.replicate 51 "." := by
  refine ⟨by decide, by decide, by decide⟩

/-- Claim C8 (amended): a document with at most `MAX` sentence-ending
tokens is returned unchanged; otherwise, for a sampled boundary index
`i` (with `50 ≤ i`, as holds under the default `MAX = 50`), the result
is a new document whose tokens are the slice from the boundary position
50 sentences before `i` up to but excluding the boundary token at `i`,
with the remaining data copied. -/
theorem truncate_behavior (d : Document) (MAX i : Nat) :
    ((sentenceIdxs d.tokens).length ≤ MAX → d.truncate MAX i = some d) ∧
    (50 ≤ i →
      ∀ a b, (sentenceIdxs d.tokens).get? (i - 50) = some a →
        (sentenceIdxs d.tokens).get? i = some b →
        MAX < (sentenceIdxs d.tokens).length →
        d.truncate MAX i
          = some ⟨(d.tokens.take b).drop a, d.corefs, d.speakers, d.genre⟩) := by
  constructor
  · intro h
    simp only [Document.truncate]
    rw [if_neg (by omega)]
  · intro h50 a b ha hb hlt
    have hpg : pyGetElem (sentenceIdxs d.tokens) ((i : Int) - 50) = some a := by
      simp only [pyGetElem]
      rw [if_pos (by omega)]
      have hnat : ((i : Int) - 50).toNat = i - 50 := by omega
      rw [hnat]
      exact ha
    simp only [Document.truncate]
    rw [if_pos hlt, hpg, hb]

/-- Claim C8 witness: a document with a single non-sentence token is
returned unchanged, and a 52-sentence document truncated at sampled
index 51 keeps the slice between boundary positions 1 (inclusive) and
51 (exclusive). -/
theorem truncate_behavior_witness :
    Document.truncate ⟨["w"], [], [], "g"⟩ 50 0 = some ⟨["w"], [], [], "g"⟩ ∧
    Document.truncate ⟨List.replicate 52 ".", [], [], "g"⟩ 50 51
      = some ⟨((List.replicate 52 (".": String)).take 51).drop 1, [], [], "g"⟩ :=
  ⟨(truncate_behavior ⟨["w"], [], [], "g"⟩ 50 0).1 (by decide),
   (truncate_behavior ⟨List.replicate 52 ".", [], [], "g"⟩ 50 51).2 (by decide)
     1 51 (by decide) (by decide) (by decide)⟩

/-! ## Claims about close-marker resolution -/

/-- Claim C3: when two mentions of the same label are open and
unresolved — the claim's scenario has them opened at token indices 2 and
5 — a close marker resolves the most recently opened one first: the
first close sets the end of the mention opened at 5, and only the
second close sets the end of the mention opened at 2 (LIFO).  `pre` may
hold arbitrary earlier records; `mid` and `post` may hold any records
with no unresolved mention of the label. -/
theorem close_resolves_most_recent_open
    (pre mid post : List Coref) (l : String) (e1 e2 : Nat) (s1 s2 : Option (Nat × Nat))
    (hmid : ∀ c ∈ mid, (c.label == l && c.endIdx.isNone) = false)
    (hpost : ∀ c ∈ post, (c.label == l && c.endIdx.isNone) = false) :
    resolveClose l e1 (pre ++ ⟨l, 2, none, s1⟩ :: (mid ++ ⟨l, 5, none, s2⟩ :: post))
      = some (pre ++ ⟨l, 2, none, s1⟩ :: (mid ++ ⟨l, 5, some e1, s2⟩ :: post))
    ∧ resolveClose l e2 (pre ++ ⟨l, 2, none, s1⟩ :: (mid ++ ⟨l, 5, some e1, s2⟩ :: post))
      = some (pre ++ ⟨l, 2, some e2, s1⟩ :: (mid ++ ⟨l, 5, some e1, s2⟩ :: post)) := by
  constructor
  · have hassoc : pre ++ (⟨l, 2, none, s1⟩ : Coref) :: (mid ++ ⟨l, 5, none, s2⟩ :: post)
        = (pre ++ ⟨l, 2, none, s1⟩ :: mid) ++ (⟨l, 5, none, s2⟩ : Coref) :: post := by
      simp
    have hassoc2 : pre ++ (⟨l, 2, none, s1⟩ : Coref) :: (mid ++ ⟨l, 5, some e1, s2⟩ :: post)
        = (pre ++ ⟨l, 2, none, s1⟩ :: mid) ++ (⟨l, 5, some e1, s2⟩ : Coref) :: post := by
      simp
    rw [hassoc, hassoc2]
    simp only [resolveClose]
    rw [findLastIdx_append_last _ _ _ _ (by simp) hpost]
    dsimp only
    rw [setEnd_append]
  · simp only [resolveClose]
    rw [findLastIdx_append_last _ _ _ _ (by simp)
        (by
          intro z hz
          rcases List.mem_append.mp hz with hz1 | hz2
          · exact hmid z hz1
          · rcases List.mem_cons.mp hz2 with hz3 | hz4
            · subst hz3; simp
            · exact hpost z hz4)]
    dsimp only
    rw [setEnd_append]

/-- Claim C3 witness: with only the two mentions of label `"1"` opened
at 2 and 5 pending, the first close (at token 6) resolves the mention
opened at 5 and the second close (at token 7) resolves the mention
opened at 2. -/
theorem close_resolves_most_recent_open_witness :
    resolveClose "1" 6 [⟨"1", 2, none, none⟩, ⟨"1", 5, none, none⟩]
      = some [⟨"1", 2, none, none⟩, ⟨"1", 5, some 6, none⟩]
    ∧ resolveClose "1" 7 [⟨"1", 2, none, none⟩, ⟨"1", 5, some 6, none⟩]
      = some [⟨"1", 2, some 7, none⟩, ⟨"1", 5, some 6, none⟩] :=
  close_resolves_most_recent_open [] [] [] "1" 6 7 none none
    (by intro c hc; cases hc) (by intro c hc; cases hc)

/-- Claim C4 counterexample: the spec states the parser fails on every
close marker with no matching unresolved open mention.  On this input
the token `"2)"` closes label 2 with no pending open of that label, yet
the parse succeeds; the close is silently absorbed into the already
resolved mention of label 1, whose end index is overwritten from 0
to 1. -/
theorem close_without_open_not_failing_cex :
    loadFile "g" [["0", "0", "0", "a", "-", "-", "-", "-", "-", "spk", "(1)"],
                  ["0", "0", "0", "b", "-", "-", "-", "-", "-", "spk", "2)"],
                  [], ["x", "y"]]
      = some [⟨["a", "b"], [⟨"1", 0, some 1, some (0, 1)⟩], ["spk", "spk"], "g"⟩] := by
  decide

/-- Claim C4 (amended): a close marker whose label has no matching
still-unresolved open mention raises a lookup error only when the
pending mention list is empty; when the list is nonempty the backwards
scan falls through with its loop variable at 0 and the close is silently
absorbed by overwriting the end of the first pending mention. -/
theorem close_without_open_behavior (l : String) (idx : Nat) (cs : List Coref)
    (hno : ∀ c ∈ cs, (c.label == l && c.endIdx.isNone) = false) :
    (cs = [] → resolveClose l idx cs = none) ∧
    (cs ≠ [] → resolveClose l idx cs = some (setEnd cs 0 idx)) := by
  have h := findLastIdx_eq_none (fun c => c.label == l && c.endIdx.isNone) cs hno
  constructor
  · intro he
    subst he
    rfl
  · intro hne
    simp only [resolveClose]
    rw [h]
    simp [hne]

/-- Claim C4 witness: on the empty pending list the close errors; on a
nonempty pending list with no matching unresolved mention of label
`"2"`, the close overwrites the end of the first pending mention. -/
theorem close_without_open_behavior_witness :
    resolveClose "2" 5 [] = none ∧
    resolveClose "2" 1 [⟨"1", 0, some 0, none⟩] = some [⟨"1", 0, some 1, none⟩] :=
  ⟨(close_without_open_behavior "2" 5 [] (by intro c hc; cases hc)).1 rfl,
   (close_without_open_behavior "2" 1 [⟨"1", 0, some 0, none⟩] (by decide)).2 (by decide)⟩

/-! ## Parser invariants for well-formed inputs -/

/-- A mention record whose end, when resolved, is not before its
start. -/
def okEnd (c : Coref) : Prop := ∀ e, c.endIdx = some e → c.start ≤ e

/-- Invariant of the pending-mention accumulator: every record was
opened at or before the current token index and respects `okEnd`. -/
def CorefsInv (idx : Nat) (cs : List Coref) : Prop :=
  ∀ c ∈ cs, c.start ≤ idx ∧ okEnd c

/-- The document invariants claimed by the spec: token and speaker
sequences have equal length, and every resolved mention has its end at
or after its start. -/
def GoodDoc (d : Document) : Prop :=
  d.tokens.length = d.speakers.length ∧ ∀ c ∈ d.corefs, okEnd c

/-- Invariant of the whole parser state. -/
def StateInv (s : LoadState) : Prop :=
  s.tokens.length = s.utts_speakers.length ∧
  CorefsInv s.index s.corefs ∧
  (∀ c ∈ s.utts_corefs, okEnd c) ∧
  (∀ d ∈ s.documents, GoodDoc d)

theorem mem_setEnd {cs : List Coref} {j e : Nat} {c : Coref}
    (h : c ∈ setEnd cs j e) :
    c ∈ cs ∨ ∃ c0 ∈ cs, c = { c0 with endIdx := some e } := by
  induction cs generalizing j with
  | nil => simp [setEnd] at h
  | cons a as ih =>
    cases j with
    | zero =>
      rcases List.mem_cons.mp h with h1 | h1
      · exact Or.inr ⟨a, List.mem_cons_self a as, h1⟩
      · exact Or.inl (List.mem_cons_of_mem a h1)
    | succ j =>
      rcases List.mem_cons.mp h with h1 | h1
      · exact Or.inl (h1 ▸ List.mem_cons_self a as)
      · rcases ih h1 with h2 | ⟨c0, hc0, he⟩
        · exact Or.inl (List.mem_cons_of_mem a h2)
        · exact Or.inr ⟨c0, List.mem_cons_of_mem a hc0, he⟩

theorem corefsInv_mono {idx idx2 : Nat} {cs : List Coref} (hle : idx ≤ idx2)
    (h : CorefsInv idx cs) : CorefsInv idx2 cs := by
  intro c hc
  exact ⟨le_trans (h c hc).1 hle, (h c hc).2⟩

theorem resolveCloseWF_inv {l : String} {idx : Nat} {cs cs1 : List Coref}
    (hinv : CorefsInv idx cs) (h : resolveCloseWF l idx cs = some cs1) :
    CorefsInv idx cs1 := by
  cases hf : findLastIdx (fun c => c.label == l && c.endIdx.isNone) cs with
  | none => simp only [resolveCloseWF, hf] at h; exact absurd h (by simp)
  | some j =>
    simp only [resolveCloseWF, hf, Option.some.injEq] at h
    subst h
    intro c hc
    rcases mem_setEnd hc with h3 | ⟨c0, hc0, rfl⟩
    · exact hinv c h3
    · refine ⟨(hinv c0 hc0).1, ?_⟩
      intro e he
      simp only [Option.some.injEq] at he
      exact he ▸ (hinv c0 hc0).1

theorem processCorefExprWF_inv {idx : Nat} {ts : List (List Char)} {cs cs1 : List Coref}
    (hinv : CorefsInv idx cs) (h : processCorefExprWF idx cs ts = some cs1) :
    CorefsInv idx cs1 := by
  induction ts generalizing cs with
  | nil =>
    simp only [processCorefExprWF, Option.some.injEq] at h
    exact h ▸ hinv
  | cons t rest ih =>
    simp only [processCorefExprWF] at h
    rcases hp : parseCorefToken t with _ | ⟨op, lab, cl⟩
    · rw [hp] at h; exact absurd h (by simp)
    · rw [hp] at h
      have hinv1 : CorefsInv idx (if op then cs ++ [⟨lab, idx, none, none⟩] else cs) := by
        cases op
        · simpa using hinv
        · simp only [if_pos]
          intro c hc
          rcases List.mem_append.mp hc with h1 | h1
          · exact hinv c h1
          · simp only [List.mem_singleton] at h1
            subst h1
            exact ⟨le_refl idx, by intro e he; cases he⟩
      cases cl with
      | false =>
        simp only [if_neg Bool.false_ne_true] at h
        exact ih hinv1 h
      | true =>
        simp only [if_pos rfl] at h
        cases hrc : resolveCloseWF lab idx (if op then cs ++ [⟨lab, idx, none, none⟩] else cs) with
        | none => rw [hrc] at h; exact absurd h (by simp)
        | some cs2 =>
          rw [hrc] at h
          exact ih (resolveCloseWF_inv hinv1 hrc) h

/-! ## Agreement of the well-formed parser with the real parser -/

theorem resolveCloseWF_agree {l : String} {idx : Nat} {cs cs1 : List Coref}
    (h : resolveCloseWF l idx cs = some cs1) : resolveClose l idx cs = some cs1 := by
  cases hf : findLastIdx (fun c => c.label == l && c.endIdx.isNone) cs with
  | none => simp only [resolveCloseWF, hf] at h; exact absurd h (by simp)
  | some j =>
    simp only [resolveCloseWF, hf, Option.some.injEq] at h
    simp only [resolveClose, hf, Option.some.injEq]
    exact h

theorem processCorefExprWF_agree {idx : Nat} {ts : List (List Char)} {cs cs1 : List Coref}
    (h : processCorefExprWF idx cs ts = some cs1) :
    processCorefExpr idx cs ts = some cs1 := by
  induction ts generalizing cs with
  | nil => exact h
  | cons t rest ih =>
    simp only [processCorefExprWF] at h
    simp only [processCorefExpr]
    rcases hp : parseCorefToken t with _ | ⟨op, lab, cl⟩
    · rw [hp] at h; exact absurd h (by simp)
    · rw [hp] at h
      cases cl with
      | false =>
        simp only [if_neg Bool.false_ne_true] at h ⊢
        exact ih h
      | true =>
        simp only [if_pos rfl] at h ⊢
        cases hrc : resolveCloseWF lab idx (if op then cs ++ [⟨lab, idx, none, none⟩] else cs) with
        | none => rw [hrc] at h; exact absurd h (by simp)
        | some cs2 =>
          rw [hrc] at h
          rw [resolveCloseWF_agree hrc]
          exact ih h

theorem processRecordWF_agree {s s1 : LoadState} {cols : List String}
    (h : processRecordWF s cols = some s1) : processRecord s cols = some s1 := by
  cases h9 : cols.get? 9 with
  | none =>
    unfold processRecordWF at h
    rw [h9] at h
    dsimp only at h
    exact absurd h (by simp)
  | some sp =>
    unfold processRecordWF at h
    rw [h9] at h
    dsimp only at h
    unfold processRecord
    rw [h9]
    dsimp only
    cases hlast : (cols.getLastD "" == "-") with
    | true =>
      rw [if_pos hlast] at h
      rw [if_pos rfl]
      exact h
    | false =>
      rw [if_neg (fun hc => Bool.false_ne_true (hlast ▸ hc))] at h
      rw [if_neg Bool.false_ne_true]
      cases hpe : processCorefExprWF s.index s.corefs (splitPipe (cols.getLastD "").data) with
      | none =>
        rw [hpe] at h
        dsimp only at h
        exact absurd h (by simp)
      | some cs =>
        rw [hpe] at h
        dsimp only at h
        rw [processCorefExprWF_agree hpe]
        dsimp only
        exact h

theorem processLineWF_agree {g : String} {s s1 : LoadState} {cols : List String}
    (h : processLineWF g s cols = some s1) : processLine g s cols = some s1 := by
  by_cases h0 : cols.length = 0
  · simp only [processLineWF, if_pos h0] at h
    simp only [processLine, if_pos h0]
    exact h
  · by_cases h2 : cols.length = 2
    · simp only [processLineWF, if_neg h0, if_pos h2] at h
      simp only [processLine, if_neg h0, if_pos h2]
      cases hg : (s.text.isEmpty && s.corefs.isEmpty) with
      | false => rw [hg] at h; exact absurd h (by simp)
      | true => rw [hg] at h; simpa using h
    · by_cases h7 : 7 < cols.length
      · simp only [processLineWF, if_neg h0, if_neg h2, if_pos h7] at h
        simp only [processLine, if_neg h0, if_neg h2, if_pos h7]
        exact processRecordWF_agree h
      · simp only [processLineWF, if_neg h0, if_neg h2, if_neg h7] at h
        simp only [processLine, if_neg h0, if_neg h2, if_neg h7]
        exact h

theorem runLinesWF_agree {g : String} {lines : List (List String)} {s s1 : LoadState}
    (h : runLinesWF g s lines = some s1) : runLines g s lines = some s1 := by
  induction lines generalizing s with
  | nil => exact h
  | cons cols rest ih =>
    simp only [runLinesWF] at h
    simp only [runLines]
    cases hp : processLineWF g s cols with
    | none => rw [hp] at h; exact absurd h (by simp)
    | some st =>
      rw [hp] at h
      rw [processLineWF_agree hp]
      exact ih h

/-! ## Invariant preservation -/

theorem goodDoc_fixCorefSpans (d : Document) (h1 : d.tokens.length = d.speakers.length)
    (h2 : ∀ c ∈ d.corefs, okEnd c) : GoodDoc (fixCorefSpans d) := by
  constructor
  · exact h1
  · intro c hc
    simp only [fixCorefSpans, List.mem_map] at hc
    obtain ⟨c0, hc0, rfl⟩ := hc
    intro e he
    exact h2 c0 hc0 e he

theorem processRecordWF_inv {s s1 : LoadState} {cols : List String}
    (hinv : StateInv s) (h : processRecordWF s cols = some s1) : StateInv s1 := by
  obtain ⟨hlen, hcinv, hutts, hdocs⟩ := hinv
  cases h9 : cols.get? 9 with
  | none =>
    unfold processRecordWF at h
    rw [h9] at h
    dsimp only at h
    exact absurd h (by simp)
  | some sp =>
    unfold processRecordWF at h
    rw [h9] at h
    dsimp only at h
    cases hlast : (cols.getLastD "" == "-") with
    | true =>
      rw [if_pos hlast] at h
      simp only [Option.some.injEq] at h
      subst h
      exact ⟨hlen, corefsInv_mono (Nat.le_succ s.index) hcinv, hutts, hdocs⟩
    | false =>
      rw [if_neg (fun hc => Bool.false_ne_true (hlast ▸ hc))] at h
      cases hpe : processCorefExprWF s.index s.corefs (splitPipe (cols.getLastD "").data) with
      | none =>
        rw [hpe] at h
        dsimp only at h
        exact absurd h (by simp)
      | some cs =>
        rw [hpe] at h
        dsimp only at h
        simp only [Option.some.injEq] at h
        subst h
        exact ⟨hlen, corefsInv_mono (Nat.le_succ s.index) (processCorefExprWF_inv hcinv hpe),
               hutts, hdocs⟩

theorem processLineWF_inv {g : String} {s s1 : LoadState} {cols : List String}
    (hinv : StateInv s) (h : processLineWF g s cols = some s1) : StateInv s1 := by
  obtain ⟨hlen, hcinv, hutts, hdocs⟩ := hinv
  by_cases h0 : cols.length = 0
  · simp only [processLineWF, if_pos h0] at h
    cases hte : s.text.isEmpty with
    | true =>
      rw [if_pos hte] at h
      simp only [Option.some.injEq] at h
      subst h
      exact ⟨hlen, hcinv, hutts, hdocs⟩
    | false =>
      rw [if_neg (fun hc => Bool.false_ne_true (hte ▸ hc))] at h
      cases hsp : s.speaker with
      | none => rw [hsp] at h; exact absurd h (by simp)
      | some sp =>
        rw [hsp] at h
        simp only [Option.some.injEq] at h
        subst h
        refine ⟨?_, ?_, ?_, hdocs⟩
        · simp [hlen]
        · intro c hc
          simp at hc
        · intro c hc
          rcases List.mem_append.mp hc with h1 | h1
          · exact hutts c h1
          · exact (hcinv c h1).2
  · by_cases h2 : cols.length = 2
    · simp only [processLineWF, if_neg h0, if_pos h2] at h
      cases hg : (s.text.isEmpty && s.corefs.isEmpty) with
      | false =>
        rw [if_neg (fun hc => Bool.false_ne_true (hg ▸ hc))] at h
        exact absurd h (by simp)
      | true =>
        rw [if_pos hg] at h
        simp only [Option.some.injEq] at h
        subst h
        have hce : s.corefs = [] :=
          List.isEmpty_iff.mp (Bool.and_elim_right hg)
        refine ⟨rfl, ?_, ?_, ?_⟩
        · rw [hce]
          intro c hc
          simp at hc
        · intro c hc
          simp at hc
        · intro d hd
          rcases List.mem_append.mp hd with h1 | h1
          · exact hdocs d h1
          · simp only [List.mem_singleton] at h1
            subst h1
            exact goodDoc_fixCorefSpans _ hlen hutts
    · by_cases h7 : 7 < cols.length
      · simp only [processLineWF, if_neg h0, if_neg h2, if_pos h7] at h
        exact processRecordWF_inv ⟨hlen, hcinv, hutts, hdocs⟩ h
      · simp only [processLineWF, if_neg h0, if_neg h2, if_neg h7, Option.some.injEq] at h
        subst h
        exact ⟨hlen, hcinv, hutts, hdocs⟩

theorem runLinesWF_inv {g : String} {lines : List (List String)} {s s1 : LoadState}
    (hinv : StateInv s) (h : runLinesWF g s lines = some s1) : StateInv s1 := by
  induction lines generalizing s with
  | nil =>
    simp only [runLinesWF, Option.some.injEq] at h
    exact h ▸ hinv
  | cons cols rest ih =>
    simp only [runLinesWF] at h
    cases hp : processLineWF g s cols with
    | none => rw [hp] at h; exact absurd h (by simp)
    | some st =>
      rw [hp] at h
      exact ih (processLineWF_inv hinv hp) h

theorem initState_inv : StateInv initState := by
  refine ⟨rfl, ?_, ?_, ?_⟩ <;> intro x hx <;> simp [initState] at hx

/-- Claim C5: on a well-formed input file — modelled by `loadFileWF`,
which accepts exactly the parses where every close marker finds a
matching unresolved open mention and no pending utterance data crosses a
document boundary — the real parser produces the same documents, and
every document satisfies the claimed invariants: the token and speaker
sequences have equal length, and every resolved mention's end index is
at or after its start index.  (`fix_coref_spans`, absent from the given
sources, is modelled from the spec as materializing spans only.) -/
theorem wellformed_documents_invariants (genre : String) (lines : List (List String))
    (docs : List Document) (h : loadFileWF genre lines = some docs) :
    loadFile genre lines = some docs ∧
    ∀ d ∈ docs, d.tokens.length = d.speakers.length ∧
      ∀ c ∈ d.corefs, ∀ e, c.endIdx = some e → c.start ≤ e := by
  cases hr : runLinesWF genre initState lines with
  | none => rw [loadFileWF, hr] at h; exact absurd h (by simp)
  | some sf =>
    rw [loadFileWF, hr] at h
    simp only [Option.map_some', Option.some.injEq] at h
    subst h
    have hagree := runLinesWF_agree hr
    have hinv := runLinesWF_inv initState_inv hr
    constructor
    · rw [loadFile, hagree]
      rfl
    · intro d hd
      exact ⟨(hinv.2.2.2 d hd).1, (hinv.2.2.2 d hd).2⟩

/-- Claim C5 witness: a concrete well-formed file — one utterance with a
mention of label 1 spanning tokens 0 to 1, a blank line, and a document
boundary — parses to one document satisfying the invariants. -/
theorem wellformed_documents_invariants_witness :
    loadFile "g" [["0", "0", "0", "a", "-", "-", "-", "-", "-", "spk", "(1"],
                  ["0", "0", "0", "b", "-", "-", "-", "-", "-", "spk", "1)"],
                  [], ["x", "y"]]
      = some [⟨["a", "b"], [⟨"1", 0, some 1, some (0, 1)⟩], ["spk", "spk"], "g"⟩] :=
  (wellformed_documents_invariants "g"
    [["0", "0", "0", "a", "-", "-", "-", "-", "-", "spk", "(1"],
     ["0", "0", "0", "b", "-", "-", "-", "-", "-", "spk", "1)"],
     [], ["x", "y"]]
    [⟨["a", "b"], [⟨"1", 0, some 1, some (0, 1)⟩], ["spk", "spk"], "g"⟩] (by decide)).1

/-! ## Utterance flushing and document boundaries -/

theorem processLine_record {g : String} {s : LoadState} {cols : List String}
    (h7 : 7 < cols.length) : processLine g s cols = processRecord s cols := by
  unfold processLine
  rw [if_neg (by omega), if_neg (by omega), if_pos h7]

theorem processRecord_fields {s s1 : LoadState} {cols : List String}
    (h : processRecord s cols = some s1) :
    s1.utts_speakers = s.utts_speakers ∧
    s1.text = s.text ++ [clean_token (cols.getD 3 "")] ∧
    s1.speaker = cols.get? 9 := by
  cases h9 : cols.get? 9 with
  | none =>
    unfold processRecord at h
    rw [h9] at h
    dsimp only at h
    exact absurd h (by simp)
  | some sp =>
    unfold processRecord at h
    rw [h9] at h
    dsimp only at h
    cases hlast : (cols.getLastD "" == "-") with
    | true =>
      rw [if_pos hlast] at h
      simp only [Option.some.injEq] at h
      subst h
      exact ⟨rfl, rfl, rfl⟩
    | false =>
      rw [if_neg (fun hc => Bool.false_ne_true (hlast ▸ hc))] at h
      cases hpe : processCorefExpr s.index s.corefs (splitPipe (cols.getLastD "").data) with
      | none =>
        rw [hpe] at h
        dsimp only at h
        exact absurd h (by simp)
      | some cs =>
        rw [hpe] at h
        dsimp only at h
        simp only [Option.some.injEq] at h
        subst h
        exact ⟨rfl, rfl, rfl⟩

theorem runLines_append {g : String} (xs ys : List (List String)) (s : LoadState) :
    runLines g s (xs ++ ys)
      = match runLines g s xs with
        | none => none
        | some t => runLines g t ys := by
  induction xs generalizing s with
  | nil => rfl
  | cons c cs ih =>
    simp only [List.cons_append, runLines]
    cases processLine g s c with
    | none => rfl
    | some t => exact ih t

theorem runLines_records_base {g : String} {recs : List (List String)} {s s1 : LoadState}
    (h7 : ∀ r ∈ recs, 7 < r.length)
    (h : runLines g s recs = some s1) :
    s1.utts_speakers = s.utts_speakers ∧ s1.text.length = s.text.length + recs.length := by
  induction recs generalizing s with
  | nil =>
    simp only [runLines, Option.some.injEq] at h
    subst h
    exact ⟨rfl, by simp⟩
  | cons r rest ih =>
    simp only [runLines] at h
    rw [processLine_record (h7 r (List.mem_cons_self r rest))] at h
    cases hp : processRecord s r with
    | none => rw [hp] at h; exact absurd h (by simp)
    | some t =>
      rw [hp] at h
      obtain ⟨hu, ht, _⟩ := processRecord_fields hp
      obtain ⟨ih1, ih2⟩ := ih (fun x hx => h7 x (List.mem_cons_of_mem r hx)) h
      constructor
      · rw [ih1, hu]
      · rw [ih2, ht]
        simp only [List.length_append, List.length_cons, List.length_nil]
        omega

/-- Claim C9: an utterance is a run of token records followed by a blank
line.  Every token of the utterance is assigned the speaker column of
the utterance's LAST token record: the flushed speaker sequence is that
record's speaker replicated over the utterance length, and the speaker
columns of the earlier records are discarded. -/
theorem utterance_speakers_from_last_record (g : String) (s0 s1 s2 : LoadState)
    (rs : List (List String)) (r : List String) (sp : String)
    (h7 : ∀ x ∈ rs ++ [r], 7 < x.length)
    (h0 : s0.text = [])
    (hf : runLines g s0 (rs ++ [r]) = some s1)
    (hb : processLine g s1 [] = some s2)
    (hsp : r.get? 9 = some sp) :
    s2.utts_speakers = s0.utts_speakers ++ List.replicate (rs.length + 1) sp := by
  rw [runLines_append rs [r] s0] at hf
  cases hrs : runLines g s0 rs with
  | none => rw [hrs] at hf; exact absurd hf (by simp)
  | some t =>
    rw [hrs] at hf
    dsimp only at hf
    simp only [runLines] at hf
    rw [processLine_record (h7 r (by simp))] at hf
    cases hpr : processRecord t r with
    | none => rw [hpr] at hf; exact absurd hf (by simp)
    | some u =>
      rw [hpr] at hf
      simp only [Option.some.injEq] at hf
      subst hf
      obtain ⟨hbase1, hbase2⟩ :=
        runLines_records_base (fun x hx => h7 x (by simp [hx])) hrs
      obtain ⟨hru, hrt, hrsp⟩ := processRecord_fields hpr
      have htlen : u.text.length = rs.length + 1 := by
        rw [hrt]
        simp only [List.length_append, List.length_cons, List.length_nil]
        rw [hbase2, h0]
        simp
      have hne : u.text.isEmpty = false := by
        cases hie : u.text.isEmpty with
        | false => rfl
        | true =>
          exfalso
          rw [List.isEmpty_iff.mp hie] at htlen
          simp at htlen
      have hsps : u.speaker = some sp := by rw [hrsp, hsp]
      simp only [processLine, List.length_nil, if_pos rfl] at hb
      rw [if_neg (fun hc => Bool.false_ne_true (hne ▸ hc))] at hb
      rw [hsps] at hb
      simp only [if_true, Option.some.injEq] at hb
      subst hb
      show u.utts_speakers ++ List.replicate u.text.length sp
          = s0.utts_speakers ++ List.replicate (rs.length + 1) sp
      rw [hru, hbase1, htlen]

/-- Claim C9 witness: an utterance of two records with speaker columns
`"A"` then `"B"` flushes the speaker sequence `["B", "B"]` — the last
record's speaker replicated, the earlier record's `"A"` discarded. -/
theorem utterance_speakers_from_last_record_witness :
    (⟨[], ["x", "y"], [], [], ["B", "B"], [], 2, some "B"⟩ : LoadState).utts_speakers
      = ([] : List String) ++ List.replicate (1 + 1) "B" :=
  utterance_speakers_from_last_record "g" initState
    ⟨[], [], ["x", "y"], [], [], [], 2, some "B"⟩
    ⟨[], ["x", "y"], [], [], ["B", "B"], [], 2, some "B"⟩
    [["0", "0", "0", "x", "-", "-", "-", "-", "-", "A", "-"]]
    ["0", "0", "0", "y", "-", "-", "-", "-", "-", "B", "-"] "B"
    (by decide) rfl (by decide) (by decide) rfl

/-- Claim C10 counterexample: the claim states the pending utterance's
tokens and coreference records are silently discarded at a document
boundary.  The tokens are, but the pending coreference record is not:
the source resets `tokens, text, utts_corefs, utts_speakers, index` but
not `corefs`, so the mention of label 1 opened in the unterminated
utterance of the first document reappears in the SECOND document's
coreference records, although no record of the second document carries a
coreference marker. -/
theorem pending_corefs_leak_cex :
    loadFile "g" [["0", "0", "0", "a", "-", "-", "-", "-", "-", "spk", "(1"],
                  ["x", "y"],
                  ["0", "0", "0", "b", "-", "-", "-", "-", "-", "spk", "-"],
                  [], ["x", "y"]]
      = some [⟨[], [], [], "g"⟩,
              ⟨["b"], [⟨"1", 0, none, none⟩], ["spk"], "g"⟩] := by
  decide

/-- Claim C10 (amended): when a two-field document-boundary line is
reached with an unflushed pending utterance, the finalized Document
excludes that utterance entirely — it is built only from the flushed
accumulators, independently of the pending `text` and `corefs` buffers.
The pending tokens are discarded (`text` is reset), but the pending
coreference records are NOT discarded: the `corefs` accumulator survives
the boundary and is carried into the next document. -/
theorem doc_boundary_pending_behavior (g : String) (s s1 : LoadState) (cols : List String)
    (h2 : cols.length = 2) (hp : processLine g s cols = some s1) :
    s1.documents = s.documents
        ++ [fixCorefSpans ⟨s.tokens, s.utts_corefs, s.utts_speakers, g⟩] ∧
    s1.text = [] ∧
    s1.corefs = s.corefs ∧
    ∀ t c, processLine g { s with text := t, corefs := c } cols
        = some { s1 with corefs := c } := by
  have h0 : ¬ cols.length = 0 := by omega
  simp only [processLine, if_neg h0, if_pos h2, Option.some.injEq] at hp
  subst hp
  refine ⟨rfl, rfl, rfl, ?_⟩
  intro t c
  simp only [processLine, if_neg h0, if_pos h2]

/-- Claim C10 witness: a state with a pending utterance (`text`
`["pending"]` and an open mention of label 9) hits a document boundary;
the emitted document is built from the flushed accumulators only and the
pending mention survives in the accumulator. -/
theorem doc_boundary_pending_behavior_witness :
    (⟨[⟨["tok"], [], ["spk"], "g"⟩], [], [], [], [], [⟨"9", 3, none, none⟩], 0,
        some "spk"⟩ : LoadState).corefs
      = (⟨[], ["tok"], ["pending"], [], ["spk"], [⟨"9", 3, none, none⟩], 4,
          some "spk"⟩ : LoadState).corefs :=
  (doc_boundary_pending_behavior "g"
    ⟨[], ["tok"], ["pending"], [], ["spk"], [⟨"9", 3, none, none⟩], 4, some "spk"⟩
    ⟨[⟨["tok"], [], ["spk"], "g"⟩], [], [], [], [], [⟨"9", 3, none, none⟩], 0, some "spk"⟩
    ["x", "y"] (by decide) (by decide)).2.2.1
